import Mathlib

/-!
Verification of the jamcoder concatenative speech synthesizer core.

The embedding translates the Python sources into Lean:
* Python floats (times, intonation scalars, crossfade weights) become `ℚ`;
* Python `None` / strings / object references that may appear in the
  `pre`/`nex` context fields of a `PhonemeInstance` become the `Ctx` sum;
* fallible code (dict lookups raising `KeyError`, `exit(-1)` paths,
  reads of an unbound loop variable) becomes `Except PyErr`;
* a `Typeme` node of a well-formed tree (stored `depth` = distance from
  the root, root depth 0, as the tree invariant requires) is represented
  by its node-to-root list of names: the head is the node's own name,
  the last element is the root's name, and the stored depth equals
  `length - 1`.  Walking to the parent is `List.tail`.
-/

namespace Jamcoder

/-- A phonetic-category tree node: `Typeme(name, children)` from
`typemes.py`, with the `depth`/`parent` fields made implicit by the
node-to-root path representation used for tree members. -/
inductive Tree where
  | node (name : String) (children : List Tree)
deriving Repr

mutual

/-- All node-to-root name paths of the tree, in pre-order
(the node itself first, then the subtrees left to right). -/
def Tree.pathsOf : Tree → List (List String)
  | .node n cs => [n] :: (Forest.pathsOf cs).map (· ++ [n])

/-- Paths of a list of sibling subtrees, left to right. -/
def Forest.pathsOf : List Tree → List (List String)
  | [] => []
  | t :: ts => Tree.pathsOf t ++ Forest.pathsOf ts

end

mutual

/-- All node names of the tree in pre-order. -/
def Tree.names : Tree → List String
  | .node n cs => n :: Forest.names cs

/-- Names of a list of sibling subtrees. -/
def Forest.names : List Tree → List String
  | [] => []
  | t :: ts => Tree.names t ++ Forest.names ts

end

mutual

/-- `Typeme.__getitem__`: pre-order search for a node by name; returns
the node-to-root path of the first matching node, `none` when absent. -/
def Tree.find : Tree → String → Option (List String)
  | .node n cs, target =>
    if n = target then some [n]
    else match Forest.find cs target with
      | some p => some (p ++ [n])
      | none => none

/-- Search a list of sibling subtrees for a name, left to right. -/
def Forest.find : List Tree → String → Option (List String)
  | [], _ => none
  | t :: ts, target =>
    match Tree.find t target with
    | some p => some p
    | none => Forest.find ts target

end

/-- The lockstep upward walk of `Typeme.similarity` on two paths already
brought to equal depth: compare the names at the current depth, return
that depth (`xs.length`) on a match, else move both to their parents;
`-1` once the root has been passed. -/
def simLoop : List String → List String → Int
  | x :: xs, y :: ys => if x = y then (xs.length : Int) else simLoop xs ys
  | _, _ => -1

/-- `Typeme.similarity` from `typemes.py`: `-1` when `other` is `None`;
otherwise walk the deeper node up to the shallower one's depth
(dropping from the head of the node-to-root path), then walk both up in
lockstep comparing names. -/
def Typeme.similarity (a : List String) : Option (List String) → Int
  | none => -1
  | some b => simLoop (a.drop (a.length - b.length)) (b.drop (b.length - a.length))

/-- Longest run of equal leading elements of two lists (used to express
the "deepest shared ancestor" of two node-to-root paths via their
reversals). -/
def commonStem : List String → List String → List String
  | x :: xs, y :: ys => if x = y then x :: commonStem xs ys else []
  | _, _ => []

/-- The deepest node lying on both node-to-root paths, as the longest
common suffix of the two paths (itself a node-to-root path when
non-empty); its depth is its length minus one. -/
def deepestShared (a b : List String) : List String :=
  (commonStem a.reverse b.reverse).reverse

/-- `standard_typeme_tree` from `typemes.py`, after all the `adopt`
calls have run: the final shape of the phonetic hierarchy. -/
def standard_typeme_tree : Tree :=
  .node "phonemes" [
    .node "vowels" [
      .node "front" [.node "IY" [], .node "IH" [], .node "EH" [], .node "AE" []],
      .node "mid" [.node "AA" [], .node "ER" [], .node "AH" [], .node "AO" []],
      .node "back" [.node "UW" [], .node "UH" [], .node "OW" []]],
    .node "diphthongs" [.node "AY" [], .node "OY" [], .node "AW" [], .node "EY" []],
    .node "semivowels" [
      .node "liquids" [.node "W" [], .node "L" []],
      .node "glides" [.node "R" [], .node "Y" []]],
    .node "consonants" [
      .node "nasals" [.node "M" [], .node "N" [], .node "NG" []],
      .node "stops" [
        .node "voiced_stops" [.node "B" [], .node "D" [], .node "G" []],
        .node "unvoiced_stops" [.node "P" [], .node "T" [], .node "K" []]],
      .node "fricatives" [
        .node "voiced_fricatives" [.node "V" [], .node "TH" [], .node "Z" [], .node "ZH" []],
        .node "unvoiced_fricatives" [.node "F" [], .node "S" [], .node "SH" []]],
      .node "whisper" [.node "H" [], .node "HH" []],
      .node "affricates" [.node "JH" [], .node "CH" []]],
    .node "silence" [.node "" [], .node " " [], .node "." [], .node "!" [],
      .node "," [], .node "?" [], .node "..." [], .node "-" []]]

/-- The root's name of a tree. -/
def Tree.rootName : Tree → String
  | .node n _ => n

/-- A Python value that can sit in a `PhonemeInstance`'s `pre`/`nex`
field or be passed as a target context: `None`, a label string, or (in
`PhonemeDiskLoader`) a reference to a sibling instance, identified by
its unique `(word, interval)` pair. -/
inductive Ctx where
  | pynone
  | str (s : String)
  | ref (word : String) (interval : ℕ)
deriving Repr, DecidableEq

/-- Python truthiness of a context value (`if instance.pre: ...`):
`None` and the empty string are falsy, object references are truthy. -/
def Ctx.truthy : Ctx → Bool
  | .pynone => false
  | .str s => !s.isEmpty
  | .ref _ _ => true

/-- Modelled from the spec: the `PhonemeInstance` class is not under
`src/` (only its construction sites and callers are).  One recorded
occurrence of a phoneme: word key, interval index inside that word's
phonetic tier, intonation scalar, and `pre`/`nex` context fields.  The
`phoneme` back-reference is the enclosing dictionary key and is
omitted. -/
structure PhonemeInstance where
  word : String
  interval : ℕ
  intonation : ℚ
  pre : Ctx
  nex : Ctx
deriving Repr, DecidableEq

/-- Modelled from the spec: the `Phoneme` class used by
`dataloader.py`/`choose.py` is not under `src/`.  A named group of
recorded occurrences with an ordered, append-only `instances` list. -/
structure Phoneme where
  name : String
  instances : List PhonemeInstance
deriving Repr, DecidableEq

instance {e a : Type} [DecidableEq e] [DecidableEq a] : DecidableEq (Except e a)
  | .error u, .error v =>
    if h : u = v then .isTrue (by rw [h]) else .isFalse (fun hc => h (by injection hc))
  | .error _, .ok _ => .isFalse (fun hc => Except.noConfusion hc)
  | .ok _, .error _ => .isFalse (fun hc => Except.noConfusion hc)
  | .ok u, .ok v =>
    if h : u = v then .isTrue (by rw [h]) else .isFalse (fun hc => h (by injection hc))

/-- Lookup in an insertion-ordered Python dict (`phoneme_dict`),
modelled as an association list. -/
def dictFind (d : List (String × Phoneme)) (k : String) : Option Phoneme :=
  (d.find? (fun e => e.1 == k)).map (·.2)

/-- Python-level failures surfaced by the selection code: `KeyError`
from `phoneme_dict[name]`, the read of the unbound loop variable in
`choose_dual_similarity` when the instance list is empty, and the
`exit(-1)` taken by `choose_phoneme` on an invalid method name. -/
inductive PyErr where
  | keyError (name : String)
  | unboundLocal
  | invalidMethod
deriving Repr, DecidableEq

/-- `PhonemeLoader.get_phoneme`: `self.phoneme_dict[name]`, raising
`KeyError` for a name that was never observed. -/
def get_phoneme (d : List (String × Phoneme)) (name : String) : Except PyErr Phoneme :=
  match dictFind d name with
  | some p => .ok p
  | none => .error (.keyError name)

/-- `typemes[x] if x else None` as used in `choose_dual_similarity`:
falsy values resolve to no node, and a non-string value never equals
any node's name in `Typeme.__getitem__`. -/
def ctxNode (t : Tree) (c : Ctx) : Option (List String) :=
  if c.truthy then
    match c with
    | .str s => t.find s
    | _ => none
  else none

/-- The summed dual-similarity score of one instance, from the loop
body of `choose_dual_similarity`: each present target-side node
contributes its similarity with the instance-side node (which may be
absent). -/
def dualScore (t : Tree) (pre nex : Ctx) (x : PhonemeInstance) : Int :=
  (match ctxNode t pre with
   | some tp => Typeme.similarity tp (ctxNode t x.pre)
   | none => 0) +
  (match ctxNode t nex with
   | some tn => Typeme.similarity tn (ctxNode t x.nex)
   | none => 0)

/-- One best-candidate update in `choose_dual_similarity`: take the
instance when there is no current best, its score is strictly greater,
or the scores tie and its intonation is strictly smaller. -/
def dualSimStep (st : Option (Int × PhonemeInstance)) (s : Int) (x : PhonemeInstance) :
    Option (Int × PhonemeInstance) :=
  match st with
  | none => some (s, x)
  | some (bs, b) =>
    if s > bs ∨ (s = bs ∧ x.intonation < b.intonation) then some (s, x) else some (bs, b)

/-- `choose_dual_similarity` from `choose.py`: a `KeyError` from
`get_phoneme` propagates; with an empty instance list the trailing
read of the loop variable `instance` (line 53) raises; otherwise the
tracked best instance is returned. -/
def choose_dual_similarity (voice : List (String × Phoneme)) (t : Tree)
    (target : String) (pre nex : Ctx) : Except PyErr PhonemeInstance :=
  match get_phoneme voice target with
  | .error e => .error e
  | .ok ph =>
    match ph.instances.foldl (fun st x => dualSimStep st (dualScore t pre nex x) x) none with
    | some (_, b) => .ok b
    | none => .error .unboundLocal

/-- One bucket-slot update in `choose_dual_equality`: keep the stored
instance unless the new one has strictly smaller intonation. -/
def bucketUpdate (slot : Option PhonemeInstance) (x : PhonemeInstance) :
    Option PhonemeInstance :=
  match slot with
  | none => some x
  | some b => if b.intonation > x.intonation then some x else some b

/-- The four bucket slots held by `choose_dual_equality` after its
loop. -/
structure Buckets where
  bothSlot : Option PhonemeInstance
  preSlot : Option PhonemeInstance
  nexSlot : Option PhonemeInstance
  noneSlot : Option PhonemeInstance
deriving Repr, DecidableEq

/-- The body of the `for instance in phoneme.instances` loop of
`choose_dual_equality`: the `if/elif/elif/else` chain routes each
instance to exactly one bucket slot. -/
def dualEqStep (pre nex : Ctx) (bk : Buckets) (x : PhonemeInstance) : Buckets :=
  if pre = x.pre ∧ nex = x.nex then { bk with bothSlot := bucketUpdate bk.bothSlot x }
  else if pre = x.pre then { bk with preSlot := bucketUpdate bk.preSlot x }
  else if nex = x.nex then { bk with nexSlot := bucketUpdate bk.nexSlot x }
  else { bk with noneSlot := bucketUpdate bk.noneSlot x }

/-- The `for instance in phoneme.instances` loop of
`choose_dual_equality`. -/
def dualEqualityBuckets (pre nex : Ctx) (l : List PhonemeInstance) : Buckets :=
  l.foldl (dualEqStep pre nex) ⟨none, none, none, none⟩

/-- The final cascade of `choose_dual_equality` (choose.py lines
89-102): `both` first; when both `pre_only` and `nex_only` are
populated the lower-intonation of the two wins, with `pre_only`
preferred on a tie; an implicit `None` falls out when every bucket is
empty. -/
def dualEqualityChoice (bk : Buckets) : Option PhonemeInstance :=
  match bk.bothSlot with
  | some b => some b
  | none =>
    match bk.preSlot, bk.nexSlot with
    | some p, some n => some (if n.intonation < p.intonation then n else p)
    | some p, none => some p
    | none, some n => some n
    | none, none => bk.noneSlot

/-- `choose_dual_equality` from `choose.py`. -/
def choose_dual_equality (voice : List (String × Phoneme)) (target : String)
    (pre nex : Ctx) : Except PyErr (Option PhonemeInstance) :=
  match get_phoneme voice target with
  | .error e => .error e
  | .ok ph => .ok (dualEqualityChoice (dualEqualityBuckets pre nex ph.instances))

/-- `choose_phoneme` from `choose.py`: strategy dispatch with
`exit(-1)` on an unknown method name. -/
def choose_phoneme (voice : List (String × Phoneme)) (t : Tree) (target : String)
    (method : Option String) (pre nex : Ctx) : Except PyErr (Option PhonemeInstance) :=
  if method = some "dual_similarity" then
    (choose_dual_similarity voice t target pre nex).map some
  else if method = some "dual_equality" then
    choose_dual_equality voice target pre nex
  else .error .invalidMethod

/-- The four context buckets of the `dual_equality` strategy. -/
inductive Cat where
  | both
  | preOnly
  | nexOnly
  | neither
deriving Repr, DecidableEq

/-- The bucket an instance falls into, by exact match of its `pre`/`nex`
context values against the target's (the `if/elif/elif/else` conditions
of `choose_dual_equality`, as a classifier). -/
def cat (pre nex : Ctx) (x : PhonemeInstance) : Cat :=
  if pre = x.pre ∧ nex = x.nex then .both
  else if pre = x.pre then .preOnly
  else if nex = x.nex then .nexOnly
  else .neither

/-- The first instance of a list whose intonation is less than or equal
to every listed instance's: the minimal-intonation instance, earliest
occurrence winning ties. -/
def firstMin (fl : List PhonemeInstance) : Option PhonemeInstance :=
  fl.find? (fun x => fl.all (fun y => decide (x.intonation ≤ y.intonation)))

/-- The best representative of one bucket, as the specification phrases
it: among the instances classified into the bucket, the one with the
smallest intonation value, first occurrence winning ties. -/
def bestIn (pre nex : Ctx) (c : Cat) (l : List PhonemeInstance) : Option PhonemeInstance :=
  firstMin (l.filter (fun x => cat pre nex x == c))

/-- `fade` from `jamcoder.py`: the linear crossfade weights
`((length - t)/length, t/length)` at sample `t` of a window of
`length` samples. -/
def fade (t length : ℕ) : ℚ × ℚ :=
  (((length : ℚ) - (t : ℚ)) / (length : ℚ), (t : ℚ) / (length : ℚ))

/-- A time-aligned interval of a TextGrid phonetic tier: label text and
start/end times in seconds. -/
structure GridInterval where
  text : String
  xmin : ℚ
  xmax : ℚ
deriving Repr, DecidableEq

/-- Sample index of a time point: `int(np.floor(sr * t))`. -/
def sampleIdx (sr : ℕ) (t : ℚ) : ℤ := Int.floor ((sr : ℚ) * t)

/-- Length in samples of interval `i` of a grid:
`floor(sr·xmax) - floor(sr·xmin)` (0 for an out-of-range index). -/
def sliceLen (grid : List GridInterval) (sr : ℕ) (i : ℕ) : ℤ :=
  match grid.get? i with
  | none => 0
  | some gi => sampleIdx sr gi.xmax - sampleIdx sr gi.xmin

/-- The crossfade window length computed by the synthesis loop of
`jamcoder.py` (lines 206-221): the previous instance's interval index
is looked up in the *current* word's grid `grid`; an out-of-range index
takes the `except IndexError` path and skips the crossfade (`none`);
otherwise the window is `floor(0.1·p)` where `p` is the sample length
of that grid entry, unless the current slice length `wavLength` is
smaller, in which case `floor(0.1·wavLength)`. -/
def crossfadeLenCode (grid : List GridInterval) (sr : ℕ) (prevInterval : ℕ)
    (wavLength : ℤ) : Option ℤ :=
  match grid.get? prevInterval with
  | none => none
  | some gi =>
    let prevLen := sampleIdx sr gi.xmax - sampleIdx sr gi.xmin
    some (if prevLen < wavLength then ⌊(1 / 10 : ℚ) * (prevLen : ℚ)⌋
          else ⌊(1 / 10 : ℚ) * (wavLength : ℚ)⌋)

/-- Modelled from the spec: `crossfadeLen = floor(0.1 × min(P, C))`
samples, where `P` is the sample length of the previous unit's own
audio slice and `C` the current one's. -/
def crossfadeLenSpec (p c : ℤ) : ℤ := ⌊(1 / 10 : ℚ) * ((min p c : ℤ) : ℚ)⌋

/-- The crossfade body of the synthesis loop for one unit (`jamcoder.py`
lines 223-234), given the already computed window length `cfLen`: take
the overlap prefix of the current slice, prepend a silent pad of
`floor((1-overlap)·cfLen)` samples to the slice, scale the last `cfLen`
output samples by the fade-out weight while adding the fade-in-weighted
overlap, then append the padded slice from index `cfLen` on. -/
def crossfadeStep (synth wavSeg : List ℚ) (overlap : ℚ) (cfLen : ℕ) : List ℚ :=
  let wavOverlap := wavSeg.take cfLen
  let zerobuf : List ℚ := List.replicate (⌊(1 - overlap) * (cfLen : ℚ)⌋.toNat) 0
  let wavSeg2 := zerobuf ++ wavSeg
  let mixed := synth.mapIdx (fun i v =>
    if synth.length - cfLen ≤ i then
      v * (fade (i - (synth.length - cfLen)) cfLen).1
        + wavOverlap.getD (i - (synth.length - cfLen)) 0
          * (fade (i - (synth.length - cfLen)) cfLen).2
    else v)
  mixed ++ wavSeg2.drop cfLen

/-- `strip_stress` from `dataloader.py`: drop a trailing stress digit
`0`-`3`; anything else (including the empty string) is unchanged. -/
def strip_stress (s : String) : String :=
  match s.data.getLast? with
  | none => s
  | some c =>
    if c = '0' ∨ c = '1' ∨ c = '2' ∨ c = '3' then String.mk s.data.dropLast else s

/-- One loadable corpus item: a `.wav`/`.TextGrid` pair that passed the
loaders' existence and parse checks (both loaders skip failing items
identically, so the surviving, sorted item list is the build input). -/
structure CorpusItem where
  stem : String
  wav : List ℚ
  sr : ℕ
  intervals : List GridInterval
deriving Repr, DecidableEq

/-- Python slicing `wav[a:b]` for the non-negative indices produced by
`int(np.floor(sr * t))` on non-negative times: clamped to the list. -/
def pySlice (wav : List ℚ) (a b : ℤ) : List ℚ :=
  (wav.take b.toNat).drop a.toNat

/-- `name in self.phoneme_dict`. -/
def dictContains (d : List (String × Phoneme)) (k : String) : Bool :=
  (d.find? (fun e => e.1 == k)).isSome

/-- `if (name not in self.phoneme_dict): self.phoneme_dict[name] =
Phoneme(name, [])` — Python dicts keep insertion order. -/
def dictInsertNew (d : List (String × Phoneme)) (k : String) : List (String × Phoneme) :=
  if dictContains d k then d else d ++ [(k, ⟨k, []⟩)]

/-- `self.phoneme_dict[name].append(instance)`. -/
def dictAppend (d : List (String × Phoneme)) (k : String) (x : PhonemeInstance) :
    List (String × Phoneme) :=
  d.map (fun e => if e.1 == k then (e.1, ⟨e.2.name, e.2.instances ++ [x]⟩) else e)

/-- `self.phoneme_dict[pre][stem, interval - 1].nex = v`: update the
`nex` field of the unique instance of phoneme `k` at `(word, i)`. -/
def dictPatchNex (d : List (String × Phoneme)) (k w : String) (i : ℕ) (v : Ctx) :
    List (String × Phoneme) :=
  d.map (fun e => if e.1 == k then
    (e.1, ⟨e.2.name, e.2.instances.map (fun inst =>
      if inst.word = w ∧ inst.interval = i then
        ⟨inst.word, inst.interval, inst.intonation, inst.pre, v⟩ else inst)⟩)
    else e)

/-- One interval of `PhonemeDiskLoader.__init__`'s scan (dataloader.py
lines 139-165): stress-strip the label, slice the waveform, obtain the
intonation scalar from the collaborator `f0`, create the instance with
`pre` the previous name or `None` and `nex` initially `None`, append
it, and patch the previous instance's `nex` to a *reference to this
instance*. -/
def diskStep (f0 : List ℚ → ℕ → ℚ) (stem : String) (wav : List ℚ) (sr : ℕ)
    (st : List (String × Phoneme) × Option String) (iv : ℕ × GridInterval) :
    List (String × Phoneme) × Option String :=
  let name := strip_stress iv.2.text
  let seg := pySlice wav (sampleIdx sr iv.2.xmin) (sampleIdx sr iv.2.xmax)
  let ton := f0 seg sr
  let d1 := dictInsertNew st.1 name
  let inst : PhonemeInstance :=
    ⟨stem, iv.1, ton, (match st.2 with | none => .pynone | some s => .str s), .pynone⟩
  let d2 := dictAppend d1 name inst
  let d3 := match st.2 with
    | none => d2
    | some p => dictPatchNex d2 p stem (iv.1 - 1) (.ref stem iv.1)
  (d3, some name)

/-- One interval of `PhonemeMemLoader.__init__`'s scan (dataloader.py
lines 217-244): identical except `pre` is `''` at word start, `nex`
starts as `''`, and the previous instance's `nex` is patched to the
current *label string*. -/
def memStep (f0 : List ℚ → ℕ → ℚ) (stem : String) (wav : List ℚ) (sr : ℕ)
    (st : List (String × Phoneme) × Option String) (iv : ℕ × GridInterval) :
    List (String × Phoneme) × Option String :=
  let name := strip_stress iv.2.text
  let seg := pySlice wav (sampleIdx sr iv.2.xmin) (sampleIdx sr iv.2.xmax)
  let ton := f0 seg sr
  let d1 := dictInsertNew st.1 name
  let inst : PhonemeInstance :=
    ⟨stem, iv.1, ton, .str (match st.2 with | none => "" | some s => s), .str ""⟩
  let d2 := dictAppend d1 name inst
  let d3 := match st.2 with
    | none => d2
    | some p => dictPatchNex d2 p stem (iv.1 - 1) (.str name)
  (d3, some name)

/-- `PhonemeDiskLoader.__init__`: scan every corpus item's phonetic
tier in temporal order (`pre` resets to `None` per item). -/
def diskBuild (f0 : List ℚ → ℕ → ℚ) (corpus : List CorpusItem) :
    List (String × Phoneme) :=
  corpus.foldl (fun d item =>
    (item.intervals.enum.foldl (diskStep f0 item.stem item.wav item.sr) (d, none)).1) []

/-- `PhonemeMemLoader.__init__`. -/
def memBuild (f0 : List ℚ → ℕ → ℚ) (corpus : List CorpusItem) :
    List (String × Phoneme) :=
  corpus.foldl (fun d item =>
    (item.intervals.enum.foldl (memStep f0 item.stem item.wav item.sr) (d, none)).1) []

/-- `get_word_data`: the disk loader re-reads the unchanged wavfile
(`librosa.load` is deterministic) while the memory loader returns its
cache built from the same file; both deliver the corpus entry
`((waveform, sample rate), grid)`. -/
def get_word_data (corpus : List CorpusItem) (w : String) :
    Option ((List ℚ × ℕ) × List GridInterval) :=
  (corpus.find? (fun it => it.stem == w)).map (fun it => ((it.wav, it.sr), it.intervals))

/-- `PhonemeLoader.get_phoneme_data`: `[]` on an unknown name (the
`except KeyError` path); otherwise, for each instance, re-slice the
word's waveform at the instance's interval with the same floor rule as
the build.  (For dictionaries built from `corpus` the word and interval
lookups always succeed.) -/
def get_phoneme_data (corpus : List CorpusItem) (d : List (String × Phoneme))
    (name : String) :
    List (PhonemeInstance × (List ℚ × ℕ) × GridInterval) :=
  match dictFind d name with
  | none => []
  | some ph =>
    ph.instances.foldr (fun inst acc =>
      match get_word_data corpus inst.word with
      | none => acc
      | some ((wav, sr), grid) =>
        match grid.get? inst.interval with
        | none => acc
        | some gi =>
          (inst, (pySlice wav (sampleIdx sr gi.xmin) (sampleIdx sr gi.xmax), sr), gi)
            :: acc) []

/-- The context-free content of an instance: word, interval and
intonation. -/
def eraseInst (x : PhonemeInstance) : String × ℕ × ℚ := (x.word, x.interval, x.intonation)

/-- The context-free content of a phoneme group. -/
def erasePhoneme (p : Phoneme) : String × List (String × ℕ × ℚ) :=
  (p.name, p.instances.map eraseInst)

/-- The context-free content of a phoneme dictionary. -/
def eraseDict (d : List (String × Phoneme)) : List (String × String × List (String × ℕ × ℚ)) :=
  d.map (fun e => (e.1, erasePhoneme e.2))

/-- The context-free content of one `get_phoneme_data` entry: the
instance's word/interval/intonation plus the full audio slice, sample
rate and grid interval. -/
def eraseData (e : PhonemeInstance × (List ℚ × ℕ) × GridInterval) :
    (String × ℕ × ℚ) × (List ℚ × ℕ) × GridInterval :=
  (eraseInst e.1, e.2)

-- ## Theorems

theorem tree_paths_ne_nil (t : Tree) (p : List String) (hp : p ∈ t.pathsOf) :
    p ≠ [] := by
  cases t with
  | node n cs =>
    rw [Tree.pathsOf] at hp
    rcases List.mem_cons.mp hp with h | h
    · subst h; simp
    · obtain ⟨q, _, rfl⟩ := List.mem_map.mp h; simp

theorem forest_paths_ne_nil : ∀ (ts : List Tree) (p : List String),
    p ∈ Forest.pathsOf ts → p ≠ []
  | t :: ts, p, hp => by
    rw [Forest.pathsOf] at hp
    rcases List.mem_append.mp hp with h | h
    · exact tree_paths_ne_nil t p h
    · exact forest_paths_ne_nil ts p h

theorem tree_paths_getLast (t : Tree) (p : List String) (hp : p ∈ t.pathsOf) :
    p.getLast? = some t.rootName := by
  cases t with
  | node n cs =>
    rw [Tree.pathsOf] at hp
    rcases List.mem_cons.mp hp with h | h
    · subst h; rfl
    · obtain ⟨q, _, rfl⟩ := List.mem_map.mp h
      simp [Tree.rootName]

mutual

theorem tree_paths_map_headI : ∀ (t : Tree), t.pathsOf.map List.headI = t.names
  | .node n cs => by
    rw [Tree.pathsOf, Tree.names, List.map_cons, List.map_map]
    refine congrArg₂ _ rfl ?_
    rw [← forest_paths_map_headI cs]
    refine List.map_congr_left fun q hq => ?_
    obtain ⟨z, zs, rfl⟩ := List.exists_cons_of_ne_nil (forest_paths_ne_nil cs q hq)
    rfl

theorem forest_paths_map_headI : ∀ (ts : List Tree),
    (Forest.pathsOf ts).map List.headI = Forest.names ts
  | [] => rfl
  | t :: ts => by
    rw [Forest.pathsOf, Forest.names, List.map_append,
      tree_paths_map_headI t, forest_paths_map_headI ts]

end

theorem paths_headI_inj (t : Tree) (hnd : t.names.Nodup) {p q : List String}
    (hp : p ∈ t.pathsOf) (hq : q ∈ t.pathsOf) (h : p.headI = q.headI) : p = q := by
  refine List.inj_on_of_nodup_map ?_ hp hq h
  rw [tree_paths_map_headI t]; exact hnd

mutual

theorem tree_paths_suffix_closed : ∀ (t : Tree) (p s : List String),
    p ∈ t.pathsOf → s <:+ p → s ≠ [] → s ∈ t.pathsOf
  | .node n cs, p, s, hp, hs, hne => by
    rw [Tree.pathsOf] at hp ⊢
    rcases List.mem_cons.mp hp with h | h
    · subst h
      obtain ⟨r, hr⟩ := hs
      cases r with
      | nil => exact hr ▸ List.mem_cons_self _ _
      | cons z zs =>
        exfalso
        have hlen := congrArg List.length hr
        rw [List.length_append, List.length_cons, List.length_singleton] at hlen
        have hsp := List.length_pos.mpr hne
        omega
    · obtain ⟨q, hq, rfl⟩ := List.mem_map.mp h
      obtain ⟨r, hr⟩ := hs
      obtain ⟨s0, z, rfl⟩ : ∃ s0 z, s = s0 ++ [z] :=
        ⟨s.dropLast, s.getLast hne, (List.dropLast_append_getLast hne).symm⟩
      have hz : n = z := by
        have h1 := congrArg List.getLast? hr
        rw [← List.append_assoc, List.getLast?_concat, List.getLast?_concat] at h1
        exact (Option.some_injective _ h1).symm
      subst hz
      have hq0 : r ++ s0 = q := by
        have h1 : (r ++ s0) ++ [n] = q ++ [n] := by
          rw [List.append_assoc]; exact hr
        exact List.append_cancel_right h1
      cases s0 with
      | nil => exact List.mem_cons_self _ _
      | cons w ws =>
        refine List.mem_cons_of_mem _ (List.mem_map.mpr ⟨w :: ws, ?_, rfl⟩)
        exact forest_paths_suffix_closed cs q (w :: ws) hq ⟨r, hq0⟩ (by simp)

theorem forest_paths_suffix_closed : ∀ (ts : List Tree) (p s : List String),
    p ∈ Forest.pathsOf ts → s <:+ p → s ≠ [] → s ∈ Forest.pathsOf ts
  | t :: ts, p, s, hp, hs, hne => by
    rw [Forest.pathsOf] at hp ⊢
    rcases List.mem_append.mp hp with h | h
    · exact List.mem_append_left _ (tree_paths_suffix_closed t p s h hs hne)
    · exact List.mem_append_right _ (forest_paths_suffix_closed ts p s h hs hne)

end

theorem commonStem_nil_left (q : List String) : commonStem [] q = [] := by
  cases q <;> rfl

theorem commonStem_nil_right (p : List String) : commonStem p [] = [] := by
  cases p <;> rfl

theorem commonStem_self : ∀ l : List String, commonStem l l = l
  | [] => rfl
  | x :: xs => by rw [commonStem, if_pos rfl, commonStem_self xs]

theorem commonStem_concat_ne : ∀ (p q : List String) (x y : String), x ≠ y →
    p.length = q.length → commonStem (p ++ [x]) (q ++ [y]) = commonStem p q
  | [], [], x, y, hxy, _ => by
    simp only [List.nil_append]
    rw [commonStem, if_neg hxy, commonStem_nil_left]
  | [], b :: q, _, _, _, hlen => by simp at hlen
  | a :: p, [], _, _, _, hlen => by simp at hlen
  | a :: p, b :: q, x, y, hxy, hlen => by
    simp only [List.cons_append]
    by_cases hab : a = b
    · subst hab
      rw [commonStem, if_pos rfl]
      conv_rhs => rw [commonStem, if_pos rfl]
      rw [commonStem_concat_ne p q x y hxy (by simpa using hlen)]
    · rw [commonStem, if_neg hab]
      conv_rhs => rw [commonStem, if_neg hab]

theorem commonStem_take : ∀ (m : ℕ) (p q : List String),
    min p.length q.length ≤ m → commonStem (p.take m) (q.take m) = commonStem p q
  | _, [], q, _ => by simp [commonStem_nil_left]
  | _, a :: p, [], _ => by simp [commonStem_nil_right]
  | 0, a :: p, b :: q, h => by simp only [List.length_cons] at h; omega
  | m + 1, a :: p, b :: q, h => by
    simp only [List.take_succ_cons]
    by_cases hab : a = b
    · subst hab
      rw [commonStem, if_pos rfl]
      conv_rhs => rw [commonStem, if_pos rfl]
      rw [commonStem_take m p q (by simp only [List.length_cons] at h; omega)]
    · rw [commonStem, if_neg hab]
      conv_rhs => rw [commonStem, if_neg hab]

theorem commonStem_prefix_left : ∀ p q : List String, commonStem p q <+: p
  | [], q => by simp [commonStem_nil_left]
  | a :: p, [] => by simp [commonStem_nil_right]
  | a :: p, b :: q => by
    by_cases hab : a = b
    · subst hab
      rw [commonStem, if_pos rfl]
      obtain ⟨u, hu⟩ := commonStem_prefix_left p q
      exact ⟨u, by rw [List.cons_append, hu]⟩
    · rw [commonStem, if_neg hab]
      exact List.nil_prefix

theorem commonStem_prefix_right : ∀ p q : List String, commonStem p q <+: q
  | [], q => by simp [commonStem_nil_left]
  | a :: p, [] => by simp [commonStem_nil_right]
  | a :: p, b :: q => by
    by_cases hab : a = b
    · subst hab
      rw [commonStem, if_pos rfl]
      obtain ⟨u, hu⟩ := commonStem_prefix_right p q
      exact ⟨u, by rw [List.cons_append, hu]⟩
    · rw [commonStem, if_neg hab]
      exact List.nil_prefix

theorem prefix_commonStem : ∀ (r p q : List String),
    r <+: p → r <+: q → r <+: commonStem p q
  | [], _, _, _, _ => List.nil_prefix
  | z :: r, p, q, hp, hq => by
    obtain ⟨u, hu⟩ := hp
    obtain ⟨v, hv⟩ := hq
    subst hu hv
    rw [List.cons_append, List.cons_append, commonStem, if_pos rfl]
    obtain ⟨w, hw⟩ := prefix_commonStem r (r ++ u) (r ++ v) ⟨u, rfl⟩ ⟨v, rfl⟩
    exact ⟨w, by rw [List.cons_append, hw]⟩

theorem simLoop_symm : ∀ (a b : List String), a.length = b.length →
    simLoop a b = simLoop b a
  | [], [], _ => rfl
  | [], _ :: _, h => by simp at h
  | _ :: _, [], h => by simp at h
  | x :: xs, y :: ys, h => by
    rw [simLoop, simLoop]
    by_cases hxy : x = y
    · subst hxy
      rw [if_pos rfl, if_pos rfl]
      simp only [List.length_cons] at h
      exact congrArg Nat.cast (by omega)
    · rw [if_neg hxy, if_neg (Ne.symm hxy)]
      exact simLoop_symm xs ys (by simpa using h)

theorem simLoop_deepest (t : Tree) (hnd : t.names.Nodup) :
    ∀ (k : ℕ) (a b : List String), a.length = k → b.length = k →
      a ∈ t.pathsOf → b ∈ t.pathsOf →
      simLoop a b = ((deepestShared a b).length : Int) - 1 := by
  intro k
  induction k with
  | zero =>
    intro a b ha _ hpa _
    exact absurd (List.length_eq_zero.mp ha) (tree_paths_ne_nil t a hpa)
  | succ k ih =>
    intro a b ha hb hpa hpb
    cases a with
    | nil => exact absurd ha (by simp)
    | cons x xs =>
      cases b with
      | nil => exact absurd hb (by simp)
      | cons y ys =>
        by_cases hxy : x = y
        · subst hxy
          have hab : (x :: xs) = (x :: ys) := paths_headI_inj t hnd hpa hpb rfl
          obtain ⟨-, rfl⟩ : x = x ∧ xs = ys := by
            injection hab with h1 h2; exact ⟨h1, h2⟩
          rw [simLoop, if_pos rfl]
          have hds : deepestShared (x :: xs) (x :: xs) = x :: xs := by
            rw [deepestShared, commonStem_self, List.reverse_reverse]
          rw [hds, List.length_cons]
          push_cast
          ring
        · rw [simLoop, if_neg hxy]
          have hroota := tree_paths_getLast t _ hpa
          have hrootb := tree_paths_getLast t _ hpb
          cases xs with
          | nil =>
            exfalso
            have hys : ys = [] := by
              simp only [List.length_cons, List.length_nil] at ha hb
              exact List.length_eq_zero.mp (by omega)
            subst hys
            simp only [List.getLast?_singleton] at hroota hrootb
            exact hxy (by rw [Option.some_inj.mp hroota, Option.some_inj.mp hrootb])
          | cons x2 xs2 =>
            have hysne : ys ≠ [] := by
              intro hy
              subst hy
              simp only [List.length_cons, List.length_nil] at ha hb
              omega
            have hpxs : (x2 :: xs2) ∈ t.pathsOf :=
              tree_paths_suffix_closed t (x :: x2 :: xs2) _ hpa
                (List.suffix_cons x _) (by simp)
            have hpys : ys ∈ t.pathsOf :=
              tree_paths_suffix_closed t (y :: ys) _ hpb (List.suffix_cons y _) hysne
            have hlx : (x2 :: xs2).length = k := by
              simpa using ha
            have hly : ys.length = k := by
              simpa using hb
            have hds : deepestShared (x :: x2 :: xs2) (y :: ys) =
                deepestShared (x2 :: xs2) ys := by
              rw [deepestShared, deepestShared, List.reverse_cons x (x2 :: xs2),
                List.reverse_cons y ys,
                commonStem_concat_ne _ _ _ _ hxy
                  (by simp only [List.length_reverse, List.length_cons] at hlx ⊢; omega)]
            rw [hds]
            exact ih (x2 :: xs2) ys hlx hly hpxs hpys

theorem deepestShared_ne_nil (t : Tree) (a b : List String)
    (hpa : a ∈ t.pathsOf) (hpb : b ∈ t.pathsOf) : deepestShared a b ≠ [] := by
  have ha := tree_paths_getLast t a hpa
  have hb := tree_paths_getLast t b hpb
  have ha' : a.reverse.head? = some t.rootName := by rw [List.head?_reverse]; exact ha
  have hb' : b.reverse.head? = some t.rootName := by rw [List.head?_reverse]; exact hb
  rw [deepestShared]
  cases haR : a.reverse with
  | nil => rw [haR] at ha'; simp at ha'
  | cons u us =>
    cases hbR : b.reverse with
    | nil => rw [hbR] at hb'; simp at hb'
    | cons v vs =>
      rw [haR] at ha'
      rw [hbR] at hb'
      simp only [List.head?_cons, Option.some_inj] at ha' hb'
      rw [commonStem, if_pos (ha'.trans hb'.symm)]
      simp

theorem deepestShared_suffix_left (a b : List String) : deepestShared a b <:+ a := by
  obtain ⟨u, hu⟩ := commonStem_prefix_left a.reverse b.reverse
  refine ⟨u.reverse, ?_⟩
  have h := congrArg List.reverse hu
  rw [List.reverse_append, List.reverse_reverse] at h
  exact h

theorem deepestShared_suffix_right (a b : List String) : deepestShared a b <:+ b := by
  obtain ⟨u, hu⟩ := commonStem_prefix_right a.reverse b.reverse
  refine ⟨u.reverse, ?_⟩
  have h := congrArg List.reverse hu
  rw [List.reverse_append, List.reverse_reverse] at h
  exact h

theorem length_le_deepestShared (a b c : List String) (hca : c <:+ a) (hcb : c <:+ b) :
    c.length ≤ (deepestShared a b).length := by
  have h1 : c.reverse <+: a.reverse := by
    obtain ⟨u, hu⟩ := hca
    exact ⟨u.reverse, by rw [← List.reverse_append, hu]⟩
  have h2 : c.reverse <+: b.reverse := by
    obtain ⟨u, hu⟩ := hcb
    exact ⟨u.reverse, by rw [← List.reverse_append, hu]⟩
  have h3 := (prefix_commonStem _ _ _ h1 h2).length_le
  simpa [deepestShared] using h3

theorem similarity_eq_deepestShared (t : Tree) (hnd : t.names.Nodup)
    (a b : List String) (hpa : a ∈ t.pathsOf) (hpb : b ∈ t.pathsOf) :
    Typeme.similarity a (some b) = ((deepestShared a b).length : Int) - 1 := by
  have hane := tree_paths_ne_nil t a hpa
  have hbne := tree_paths_ne_nil t b hpb
  have hapos : 0 < a.length := List.length_pos.mpr hane
  have hbpos : 0 < b.length := List.length_pos.mpr hbne
  rw [Typeme.similarity]
  have hlen1 : (a.drop (a.length - b.length)).length = min a.length b.length := by
    rw [List.length_drop]; omega
  have hlen2 : (b.drop (b.length - a.length)).length = min a.length b.length := by
    rw [List.length_drop]; omega
  have hpa' : a.drop (a.length - b.length) ∈ t.pathsOf := by
    refine tree_paths_suffix_closed t a _ hpa (List.drop_suffix _ _) ?_
    rw [← List.length_pos, hlen1]; omega
  have hpb' : b.drop (b.length - a.length) ∈ t.pathsOf := by
    refine tree_paths_suffix_closed t b _ hpb (List.drop_suffix _ _) ?_
    rw [← List.length_pos, hlen2]; omega
  rw [simLoop_deepest t hnd (min a.length b.length) _ _ hlen1 hlen2 hpa' hpb']
  have hds : deepestShared (a.drop (a.length - b.length)) (b.drop (b.length - a.length)) =
      deepestShared a b := by
    rw [deepestShared, deepestShared, List.reverse_drop, List.reverse_drop]
    have hma : a.length - (a.length - b.length) = min a.length b.length := by omega
    have hmb : b.length - (b.length - a.length) = min a.length b.length := by omega
    rw [hma, hmb]
    rw [commonStem_take (min a.length b.length) a.reverse b.reverse (by simp)]
  rw [hds]

/-- C6: for Typeme nodes `a` and `b` of a fixed tree (with the practically
assumed unique names), `similarity` returns `-1` iff `b` is absent or no
ancestor is shared; when `b` is present and an ancestor is shared, the
result is the depth of the deepest common ancestor (the length of the
longest common suffix of the two node-to-root paths, minus one), which
is non-negative. -/
theorem similarity_deepest_common_ancestor (t : Tree) (hnd : t.names.Nodup)
    (a b : List String) (hpa : a ∈ t.pathsOf) (hpb : b ∈ t.pathsOf) :
    Typeme.similarity a none = -1 ∧
    (Typeme.similarity a (some b) = -1 ↔ ¬∃ c, c ≠ [] ∧ c <:+ a ∧ c <:+ b) ∧
    ((∃ c, c ≠ [] ∧ c <:+ a ∧ c <:+ b) →
      0 ≤ Typeme.similarity a (some b) ∧
      Typeme.similarity a (some b) = ((deepestShared a b).length : Int) - 1 ∧
      deepestShared a b ≠ [] ∧ deepestShared a b <:+ a ∧ deepestShared a b <:+ b ∧
      ∀ c, c <:+ a → c <:+ b → c.length ≤ (deepestShared a b).length) := by
  have hval := similarity_eq_deepestShared t hnd a b hpa hpb
  have hne := deepestShared_ne_nil t a b hpa hpb
  have hpos : 0 < (deepestShared a b).length := List.length_pos.mpr hne
  refine ⟨rfl, ?_, ?_⟩
  · constructor
    · intro h
      rw [hval] at h
      exfalso
      omega
    · intro h
      exact absurd ⟨deepestShared a b, hne, deepestShared_suffix_left a b,
        deepestShared_suffix_right a b⟩ h
  · intro _
    refine ⟨?_, hval, hne, deepestShared_suffix_left a b,
      deepestShared_suffix_right a b, fun c hca hcb => length_le_deepestShared a b c hca hcb⟩
    rw [hval]
    omega

/-- Witness for C6 at the standard typeme tree: the paths of `IY` and
`AE` share `front` (depth 2) as their deepest common ancestor. -/
theorem similarity_deepest_common_ancestor_witness :
    Typeme.similarity ["IY", "front", "vowels", "phonemes"]
      (some ["AE", "front", "vowels", "phonemes"]) = 2 := by
  have h := (similarity_deepest_common_ancestor standard_typeme_tree (by decide)
    ["IY", "front", "vowels", "phonemes"] ["AE", "front", "vowels", "phonemes"]
    (by decide) (by decide)).2.2
    ⟨["phonemes"], by decide, ⟨["IY", "front", "vowels"], rfl⟩,
      ⟨["AE", "front", "vowels"], rfl⟩⟩
  rw [h.2.1]
  decide

/-- C7: `similarity` is symmetric in its two (present) node arguments. -/
theorem similarity_symm (a b : List String) :
    Typeme.similarity a (some b) = Typeme.similarity b (some a) := by
  rw [Typeme.similarity, Typeme.similarity]
  refine simLoop_symm _ _ ?_
  rw [List.length_drop, List.length_drop]
  omega

/-- C4: looking up a target phoneme name that was never observed makes
selection, under either strategy, surface the distinct `KeyError`
not-found condition carrying the name — never a fabricated instance,
so callers can tell it apart from a low-scoring candidate. -/
theorem unknown_phoneme_distinct_error (voice : List (String × Phoneme)) (t : Tree)
    (target : String) (pre nex : Ctx) (h : dictFind voice target = none) :
    choose_phoneme voice t target (some "dual_similarity") pre nex
        = .error (.keyError target) ∧
    choose_phoneme voice t target (some "dual_equality") pre nex
        = .error (.keyError target) ∧
    ∀ r, choose_phoneme voice t target (some "dual_similarity") pre nex ≠ .ok r ∧
      choose_phoneme voice t target (some "dual_equality") pre nex ≠ .ok r := by
  have h1 : choose_phoneme voice t target (some "dual_similarity") pre nex
      = .error (.keyError target) := by
    simp [choose_phoneme, choose_dual_similarity, get_phoneme, h, Except.map]
  have h2 : choose_phoneme voice t target (some "dual_equality") pre nex
      = .error (.keyError target) := by
    simp [choose_phoneme, choose_dual_equality, get_phoneme, h]
  refine ⟨h1, h2, fun r => ⟨?_, ?_⟩⟩
  · rw [h1]; exact fun hc => Except.noConfusion hc
  · rw [h2]; exact fun hc => Except.noConfusion hc

/-- Witness for C4: the empty inventory knows no phoneme, so selecting
`"AE"` yields the `KeyError` condition. -/
theorem unknown_phoneme_distinct_error_witness :
    choose_phoneme [] standard_typeme_tree "AE" (some "dual_similarity") .pynone .pynone
      = .error (.keyError "AE") :=
  (unknown_phoneme_distinct_error [] standard_typeme_tree "AE" .pynone .pynone rfl).1

theorem firstMin_cons_cons (b x : PhonemeInstance) (xs : List PhonemeInstance) :
    firstMin (b :: x :: xs) =
      firstMin ((if b.intonation > x.intonation then x else b) :: xs) := by
  by_cases hbx : b.intonation > x.intonation
  · rw [if_pos hbx]
    have hb : ¬ b.intonation ≤ x.intonation := not_le.mpr hbx
    have hfun : (fun z : PhonemeInstance =>
        (b :: x :: xs).all fun y => decide (z.intonation ≤ y.intonation)) =
        (fun z => (x :: xs).all fun y => decide (z.intonation ≤ y.intonation)) := by
      funext z
      by_cases hz : z.intonation ≤ x.intonation
      · have hzb : z.intonation ≤ b.intonation := hz.trans (le_of_lt hbx)
        simp [List.all_cons, hz, hzb]
      · simp [List.all_cons, hz]
    rw [firstMin, firstMin, hfun]
    set p1 : PhonemeInstance → Bool :=
      fun z => (x :: xs).all fun y => decide (z.intonation ≤ y.intonation) with hp1
    have hpb : ¬ p1 b = true := by
      rw [hp1]; simp [List.all_cons, hb]
    rw [List.find?_cons_of_neg _ hpb]
  · rw [if_neg hbx]
    have hle : b.intonation ≤ x.intonation := not_lt.mp hbx
    have hfun : (fun z : PhonemeInstance =>
        (b :: x :: xs).all fun y => decide (z.intonation ≤ y.intonation)) =
        (fun z => (b :: xs).all fun y => decide (z.intonation ≤ y.intonation)) := by
      funext z
      by_cases hz : z.intonation ≤ b.intonation
      · have hzx : z.intonation ≤ x.intonation := hz.trans hle
        simp [List.all_cons, hz, hzx]
      · simp [List.all_cons, hz]
    rw [firstMin, firstMin, hfun]
    set p2 : PhonemeInstance → Bool :=
      fun z => (b :: xs).all fun y => decide (z.intonation ≤ y.intonation) with hp2
    by_cases hq : p2 b = true
    · rw [List.find?_cons_of_pos _ hq, List.find?_cons_of_pos _ hq]
    · by_cases hqx : p2 x = true
      · exfalso
        rw [hp2] at hqx
        simp only [List.all_cons, Bool.and_eq_true, decide_eq_true_eq] at hqx
        obtain ⟨hxb, hxall⟩ := hqx
        have heq : b.intonation = x.intonation := le_antisymm hle hxb
        apply hq
        rw [hp2]
        simp only [List.all_cons, Bool.and_eq_true, decide_eq_true_eq]
        refine ⟨le_refl _, ?_⟩
        rw [List.all_eq_true] at hxall ⊢
        intro y hy
        have := hxall y hy
        rw [decide_eq_true_eq] at this
        rw [decide_eq_true_eq, heq]
        exact this
      · rw [List.find?_cons_of_neg _ hq, List.find?_cons_of_neg _ hq,
          List.find?_cons_of_neg _ hqx]

theorem bucketFoldAcc_eq : ∀ (xs : List PhonemeInstance) (b : PhonemeInstance),
    xs.foldl bucketUpdate (some b) = firstMin (b :: xs)
  | [], b => by
    rw [List.foldl_nil, firstMin]
    set p0 : PhonemeInstance → Bool :=
      fun z => [b].all fun y => decide (z.intonation ≤ y.intonation) with hp0
    have hp : p0 b = true := by
      rw [hp0]; simp
    rw [List.find?_cons_of_pos _ hp]
  | x :: xs, b => by
    rw [List.foldl_cons]
    have hupd : bucketUpdate (some b) x =
        some (if b.intonation > x.intonation then x else b) := by
      rw [bucketUpdate]; split <;> rfl
    rw [hupd, bucketFoldAcc_eq xs _, ← firstMin_cons_cons]

theorem bucketFold_eq_firstMin : ∀ l : List PhonemeInstance,
    l.foldl bucketUpdate none = firstMin l
  | [] => rfl
  | x :: xs => by
    rw [List.foldl_cons]
    exact bucketFoldAcc_eq xs x

theorem foldl_bucketUpdate_isSome : ∀ (xs : List PhonemeInstance) (b : PhonemeInstance),
    ∃ m, xs.foldl bucketUpdate (some b) = some m
  | [], b => ⟨b, rfl⟩
  | x :: xs, b => by
    rw [List.foldl_cons]
    have hupd : bucketUpdate (some b) x =
        some (if b.intonation > x.intonation then x else b) := by
      rw [bucketUpdate]; split <;> rfl
    rw [hupd]
    exact foldl_bucketUpdate_isSome xs _

theorem firstMin_isSome (fl : List PhonemeInstance) (hne : fl ≠ []) :
    ∃ m, firstMin fl = some m := by
  cases fl with
  | nil => exact absurd rfl hne
  | cons x xs =>
    obtain ⟨m, hm⟩ := foldl_bucketUpdate_isSome xs x
    exact ⟨m, by rw [← bucketFoldAcc_eq]; exact hm⟩

theorem bestIn_mem (pre nex : Ctx) (c : Cat) (l : List PhonemeInstance)
    (y : PhonemeInstance) (h : bestIn pre nex c l = some y) : y ∈ l := by
  rw [bestIn, firstMin] at h
  exact (List.mem_filter.mp (List.mem_of_find?_eq_some h)).1

theorem dualEqBuckets_go : ∀ (l : List PhonemeInstance) (pre nex : Ctx) (bk : Buckets),
    l.foldl (dualEqStep pre nex) bk =
      ⟨(l.filter (fun x => cat pre nex x == .both)).foldl bucketUpdate bk.bothSlot,
       (l.filter (fun x => cat pre nex x == .preOnly)).foldl bucketUpdate bk.preSlot,
       (l.filter (fun x => cat pre nex x == .nexOnly)).foldl bucketUpdate bk.nexSlot,
       (l.filter (fun x => cat pre nex x == .neither)).foldl bucketUpdate bk.noneSlot⟩
  | [], pre, nex, bk => rfl
  | x :: l, pre, nex, bk => by
    rw [List.foldl_cons]
    by_cases h1 : pre = x.pre ∧ nex = x.nex
    · have hc : cat pre nex x = .both := by rw [cat, if_pos h1]
      have hstep : dualEqStep pre nex bk x =
          { bk with bothSlot := bucketUpdate bk.bothSlot x } := by
        rw [dualEqStep, if_pos h1]
      rw [hstep, dualEqBuckets_go l pre nex _]
      simp [List.filter_cons, hc]
    · by_cases h2 : pre = x.pre
      · have hc : cat pre nex x = .preOnly := by rw [cat, if_neg h1, if_pos h2]
        have hstep : dualEqStep pre nex bk x =
            { bk with preSlot := bucketUpdate bk.preSlot x } := by
          rw [dualEqStep, if_neg h1, if_pos h2]
        rw [hstep, dualEqBuckets_go l pre nex _]
        simp [List.filter_cons, hc]
      · by_cases h3 : nex = x.nex
        · have hc : cat pre nex x = .nexOnly := by rw [cat, if_neg h1, if_neg h2, if_pos h3]
          have hstep : dualEqStep pre nex bk x =
              { bk with nexSlot := bucketUpdate bk.nexSlot x } := by
            rw [dualEqStep, if_neg h1, if_neg h2, if_pos h3]
          rw [hstep, dualEqBuckets_go l pre nex _]
          simp [List.filter_cons, hc]
        · have hc : cat pre nex x = .neither := by
            rw [cat, if_neg h1, if_neg h2, if_neg h3]
          have hstep : dualEqStep pre nex bk x =
              { bk with noneSlot := bucketUpdate bk.noneSlot x } := by
            rw [dualEqStep, if_neg h1, if_neg h2, if_neg h3]
          rw [hstep, dualEqBuckets_go l pre nex _]
          simp [List.filter_cons, hc]

theorem dualEqualityBuckets_eq_bestIn (pre nex : Ctx) (l : List PhonemeInstance) :
    dualEqualityBuckets pre nex l =
      ⟨bestIn pre nex .both l, bestIn pre nex .preOnly l,
       bestIn pre nex .nexOnly l, bestIn pre nex .neither l⟩ := by
  rw [dualEqualityBuckets, dualEqBuckets_go, bestIn, bestIn, bestIn, bestIn,
    ← bucketFold_eq_firstMin, ← bucketFold_eq_firstMin,
    ← bucketFold_eq_firstMin, ← bucketFold_eq_firstMin]

/-- C9: for any phoneme known to the inventory with at least one
instance, `choose_dual_equality` returns some instance of that phoneme
and never an empty result — the four context buckets are exhaustive, so
one of them is non-empty and its representative is returned. -/
theorem dual_equality_total (voice : List (String × Phoneme)) (target : String)
    (pre nex : Ctx) (ph : Phoneme) (hv : dictFind voice target = some ph)
    (hne : ph.instances ≠ []) :
    ∃ r, choose_dual_equality voice target pre nex = .ok (some r) ∧
      r ∈ ph.instances := by
  rw [choose_dual_equality, get_phoneme, hv]
  dsimp only
  rw [dualEqualityBuckets_eq_bestIn]
  obtain ⟨x, hx⟩ := List.exists_mem_of_ne_nil ph.instances hne
  cases hB : bestIn pre nex .both ph.instances with
  | some b =>
    exact ⟨b, by simp [dualEqualityChoice, hB], bestIn_mem _ _ _ _ _ hB⟩
  | none =>
    cases hP : bestIn pre nex .preOnly ph.instances with
    | some p =>
      cases hN : bestIn pre nex .nexOnly ph.instances with
      | some n =>
        refine ⟨if n.intonation < p.intonation then n else p,
          by simp [dualEqualityChoice, hB, hP, hN], ?_⟩
        by_cases hc : n.intonation < p.intonation
        · rw [if_pos hc]; exact bestIn_mem _ _ _ _ _ hN
        · rw [if_neg hc]; exact bestIn_mem _ _ _ _ _ hP
      | none =>
        exact ⟨p, by simp [dualEqualityChoice, hB, hP, hN], bestIn_mem _ _ _ _ _ hP⟩
    | none =>
      cases hN : bestIn pre nex .nexOnly ph.instances with
      | some n =>
        exact ⟨n, by simp [dualEqualityChoice, hB, hP, hN], bestIn_mem _ _ _ _ _ hN⟩
      | none =>
        cases hZ : bestIn pre nex .neither ph.instances with
        | some z =>
          exact ⟨z, by simp [dualEqualityChoice, hB, hP, hN, hZ],
            bestIn_mem _ _ _ _ _ hZ⟩
        | none =>
          exfalso
          have hxf : x ∈ ph.instances.filter
              (fun y => cat pre nex y == cat pre nex x) :=
            List.mem_filter.mpr ⟨hx, by simp⟩
          obtain ⟨m, hm⟩ := firstMin_isSome _ (List.ne_nil_of_mem hxf)
          have : bestIn pre nex (cat pre nex x) ph.instances = some m := hm
          cases hcx : cat pre nex x with
          | both => rw [hcx] at this; rw [this] at hB; exact Option.noConfusion hB
          | preOnly => rw [hcx] at this; rw [this] at hP; exact Option.noConfusion hP
          | nexOnly => rw [hcx] at this; rw [this] at hN; exact Option.noConfusion hN
          | neither => rw [hcx] at this; rw [this] at hZ; exact Option.noConfusion hZ

/-- Witness for C9 on a one-instance inventory. -/
theorem dual_equality_total_witness :
    ∃ r, choose_dual_equality
        [("B", ⟨"B", [⟨"w", 0, 1, .pynone, .pynone⟩]⟩)] "B" .pynone .pynone
        = .ok (some r) ∧
      r ∈ [(⟨"w", 0, 1, .pynone, .pynone⟩ : PhonemeInstance)] :=
  dual_equality_total [("B", ⟨"B", [⟨"w", 0, 1, .pynone, .pynone⟩]⟩)] "B"
    .pynone .pynone ⟨"B", [⟨"w", 0, 1, .pynone, .pynone⟩]⟩ (by decide) (by decide)

/-- C1 counterexample: with `both` empty and both `pre_only` (intonation
5) and `nex_only` (intonation 3) populated, `choose_dual_equality`
returns the lower-intonation `nex_only` candidate, not the `pre_only`
candidate — the claimed unconditional `pre_only` priority does not hold
in `choose.py`. -/
theorem dual_equality_not_pre_unconditional :
    choose_dual_equality
        [("A", ⟨"A", [⟨"w", 0, 5, .str "P", .str "X"⟩,
                      ⟨"w", 1, 3, .str "Y", .str "N"⟩]⟩)]
        "A" (.str "P") (.str "N")
      = .ok (some ⟨"w", 1, 3, .str "Y", .str "N"⟩) ∧
    (⟨"w", 1, 3, .str "Y", .str "N"⟩ : PhonemeInstance)
      ≠ ⟨"w", 0, 5, .str "P", .str "X"⟩ := by
  constructor
  · decide
  · decide

/-- C1 (amended): the final choice of `choose_dual_equality` follows
the bucket priority `both` first, then `pre_only`, then `nex_only`,
then `none`, each bucket represented by its minimal-intonation
first-seen instance — except that when `both` is empty while both
`pre_only` and `nex_only` are populated, the lower-intonation of those
two representatives is returned, with `pre_only` preferred on an exact
intonation tie. -/
theorem dual_equality_bucket_priority (voice : List (String × Phoneme))
    (target : String) (pre nex : Ctx) (ph : Phoneme)
    (hv : dictFind voice target = some ph) :
    choose_dual_equality voice target pre nex = .ok (
      match bestIn pre nex .both ph.instances with
      | some b => some b
      | none =>
        match bestIn pre nex .preOnly ph.instances,
            bestIn pre nex .nexOnly ph.instances with
        | some p, some n => some (if n.intonation < p.intonation then n else p)
        | some p, none => some p
        | none, some n => some n
        | none, none => bestIn pre nex .neither ph.instances) := by
  rw [choose_dual_equality, get_phoneme, hv]
  dsimp only
  rw [dualEqualityBuckets_eq_bestIn]
  rfl

/-- Witness for C1 (amended) on a two-instance inventory where `both`
is empty and both `pre_only` and `nex_only` are populated. -/
theorem dual_equality_bucket_priority_witness :
    choose_dual_equality
        [("C", ⟨"C", [⟨"w", 0, 7, .str "P", .str "X"⟩,
                      ⟨"w", 1, 2, .str "Y", .str "N"⟩]⟩)]
        "C" (.str "P") (.str "N")
      = .ok (
        match bestIn (.str "P") (.str "N") .both
            [⟨"w", 0, 7, .str "P", .str "X"⟩, ⟨"w", 1, 2, .str "Y", .str "N"⟩] with
        | some b => some b
        | none =>
          match bestIn (.str "P") (.str "N") .preOnly
              [⟨"w", 0, 7, .str "P", .str "X"⟩, ⟨"w", 1, 2, .str "Y", .str "N"⟩],
              bestIn (.str "P") (.str "N") .nexOnly
              [⟨"w", 0, 7, .str "P", .str "X"⟩, ⟨"w", 1, 2, .str "Y", .str "N"⟩] with
          | some p, some n => some (if n.intonation < p.intonation then n else p)
          | some p, none => some p
          | none, some n => some n
          | none, none => bestIn (.str "P") (.str "N") .neither
              [⟨"w", 0, 7, .str "P", .str "X"⟩, ⟨"w", 1, 2, .str "Y", .str "N"⟩]) :=
  dual_equality_bucket_priority
    [("C", ⟨"C", [⟨"w", 0, 7, .str "P", .str "X"⟩, ⟨"w", 1, 2, .str "Y", .str "N"⟩]⟩)]
    "C" (.str "P") (.str "N")
    ⟨"C", [⟨"w", 0, 7, .str "P", .str "X"⟩, ⟨"w", 1, 2, .str "Y", .str "N"⟩]⟩
    (by decide)

theorem find?_append_first {α : Type} {p : α → Bool} :
    ∀ (l₁ l₂ : List α) (r : α), l₁.find? p = some r → (l₁ ++ l₂).find? p = some r
  | [], _, _, h => by rw [List.find?_nil] at h; exact Option.noConfusion h
  | a :: l₁, l₂, r, h => by
    by_cases hp : p a = true
    · rw [List.find?_cons_of_pos _ hp] at h
      rw [List.cons_append, List.find?_cons_of_pos _ hp]
      exact h
    · rw [List.find?_cons_of_neg _ hp] at h
      rw [List.cons_append, List.find?_cons_of_neg _ hp]
      exact find?_append_first l₁ l₂ r h

theorem find?_append_none {α : Type} {p : α → Bool} :
    ∀ (l₁ l₂ : List α), l₁.find? p = none → (l₁ ++ l₂).find? p = l₂.find? p
  | [], _, _ => rfl
  | a :: l₁, l₂, h => by
    by_cases hp : p a = true
    · rw [List.find?_cons_of_pos _ hp] at h
      exact Option.noConfusion h
    · rw [List.find?_cons_of_neg _ hp] at h
      rw [List.cons_append, List.find?_cons_of_neg _ hp]
      exact find?_append_none l₁ l₂ h

theorem bestScoreFold_spec (f : PhonemeInstance → Int) (l : List PhonemeInstance) :
    l ≠ [] →
      ∃ r s, l.foldl (fun st x => dualSimStep st (f x) x) none = some (s, r) ∧
        s = f r ∧ r ∈ l ∧
        (∀ x ∈ l, f x ≤ f r) ∧
        (∀ x ∈ l, f x = f r → r.intonation ≤ x.intonation) ∧
        l.find? (fun x => decide (f x = f r) && decide (x.intonation = r.intonation))
          = some r := by
  induction l using List.reverseRecOn with
  | nil => intro h; exact absurd rfl h
  | append_singleton l x ih =>
    intro _
    rw [List.foldl_append, List.foldl_cons, List.foldl_nil]
    rcases eq_or_ne l [] with rfl | hlne
    · refine ⟨x, f x, ?_, rfl, by simp, ?_, ?_, ?_⟩
      · rw [List.foldl_nil]; rfl
      · intro y hy
        simp only [List.nil_append, List.mem_singleton] at hy
        subst hy; exact le_refl _
      · intro y hy _
        simp only [List.nil_append, List.mem_singleton] at hy
        subst hy; exact le_refl _
      · simp
    · obtain ⟨r, s, hfold, hs, hmem, hmax, hmin, hfind⟩ := ih hlne
      rw [hfold]
      subst hs
      by_cases hrepl : f x > f r ∨ (f x = f r ∧ x.intonation < r.intonation)
      · rw [dualSimStep, if_pos hrepl]
        have hfr_le : f r ≤ f x := by
          rcases hrepl with h | ⟨h, _⟩
          · exact le_of_lt h
          · exact le_of_eq h.symm
        refine ⟨x, f x, rfl, rfl, List.mem_append_right _ (List.mem_singleton.mpr rfl),
          ?_, ?_, ?_⟩
        · intro y hy
          rcases List.mem_append.mp hy with h | h
          · exact (hmax y h).trans hfr_le
          · rw [List.mem_singleton.mp h]
        · intro y hy hfy
          rcases List.mem_append.mp hy with h | h
          · rcases hrepl with hgt | ⟨heq, hint⟩
            · exact absurd (hfy ▸ hmax y h) (not_le.mpr (hfy ▸ hgt))
            · exact le_of_lt (lt_of_lt_of_le hint (hmin y h (hfy.trans heq)))
          · rw [List.mem_singleton.mp h]
        · have hnone : l.find? (fun y => decide (f y = f x)
              && decide (y.intonation = x.intonation)) = none := by
            rw [List.find?_eq_none]
            intro y hy hpy
            rw [Bool.and_eq_true, decide_eq_true_eq, decide_eq_true_eq] at hpy
            obtain ⟨hf, hi⟩ := hpy
            rcases hrepl with hgt | ⟨heq, hint⟩
            · exact absurd (hf ▸ hmax y hy) (not_le.mpr (hf ▸ hgt))
            · have := hmin y hy (hf.trans heq)
              rw [hi] at this
              exact absurd hint (not_lt.mpr this)
          rw [find?_append_none _ _ hnone]
          simp
      · rw [dualSimStep, if_neg hrepl]
        rw [not_or, not_lt, not_and, not_lt] at hrepl
        obtain ⟨hle, htie⟩ := hrepl
        refine ⟨r, f r, rfl, rfl, List.mem_append_left _ hmem, ?_, ?_, ?_⟩
        · intro y hy
          rcases List.mem_append.mp hy with h | h
          · exact hmax y h
          · rw [List.mem_singleton.mp h]; exact hle
        · intro y hy hfy
          rcases List.mem_append.mp hy with h | h
          · exact hmin y h hfy
          · rw [List.mem_singleton.mp h] at hfy ⊢
            exact htie hfy
        · exact find?_append_first _ _ _ hfind

/-- C5: for a phoneme known to the inventory with a non-empty instance
list, `choose_dual_similarity` returns an instance maximizing the
summed similarity score; among maximal-score instances the smallest
intonation wins; among instances tied on both, the first-seen one is
returned. -/
theorem dual_similarity_optimal (voice : List (String × Phoneme)) (t : Tree)
    (target : String) (pre nex : Ctx) (ph : Phoneme)
    (hv : dictFind voice target = some ph) (hne : ph.instances ≠ []) :
    ∃ r, choose_dual_similarity voice t target pre nex = .ok r ∧
      r ∈ ph.instances ∧
      (∀ x ∈ ph.instances, dualScore t pre nex x ≤ dualScore t pre nex r) ∧
      (∀ x ∈ ph.instances, dualScore t pre nex x = dualScore t pre nex r →
        r.intonation ≤ x.intonation) ∧
      ph.instances.find? (fun x => decide (dualScore t pre nex x = dualScore t pre nex r)
        && decide (x.intonation = r.intonation)) = some r := by
  obtain ⟨r, s, hfold, hs, hmem, hmax, hmin, hfind⟩ :=
    bestScoreFold_spec (dualScore t pre nex) ph.instances hne
  refine ⟨r, ?_, hmem, hmax, hmin, hfind⟩
  rw [choose_dual_similarity, get_phoneme, hv]
  dsimp only
  rw [hfold]

/-- Witness for C5: with target context `IY`, the instance whose own
`pre` is `EH` (similarity 2 through `front`) beats the instance whose
`pre` is `B` (similarity 0). -/
theorem dual_similarity_optimal_witness :
    ∃ r, choose_dual_similarity
        [("AE", ⟨"AE", [⟨"w", 0, 0, .str "EH", .pynone⟩,
                        ⟨"w", 1, 0, .str "B", .pynone⟩]⟩)]
        standard_typeme_tree "AE" (.str "IY") .pynone = .ok r ∧
      r ∈ [(⟨"w", 0, 0, .str "EH", .pynone⟩ : PhonemeInstance),
           ⟨"w", 1, 0, .str "B", .pynone⟩] ∧
      (∀ x ∈ [(⟨"w", 0, 0, .str "EH", .pynone⟩ : PhonemeInstance),
           ⟨"w", 1, 0, .str "B", .pynone⟩],
        dualScore standard_typeme_tree (.str "IY") .pynone x
          ≤ dualScore standard_typeme_tree (.str "IY") .pynone r) ∧
      (∀ x ∈ [(⟨"w", 0, 0, .str "EH", .pynone⟩ : PhonemeInstance),
           ⟨"w", 1, 0, .str "B", .pynone⟩],
        dualScore standard_typeme_tree (.str "IY") .pynone x
            = dualScore standard_typeme_tree (.str "IY") .pynone r →
          r.intonation ≤ x.intonation) ∧
      [(⟨"w", 0, 0, .str "EH", .pynone⟩ : PhonemeInstance),
       ⟨"w", 1, 0, .str "B", .pynone⟩].find?
          (fun x => decide (dualScore standard_typeme_tree (.str "IY") .pynone x
              = dualScore standard_typeme_tree (.str "IY") .pynone r)
            && decide (x.intonation = r.intonation)) = some r :=
  dual_similarity_optimal
    [("AE", ⟨"AE", [⟨"w", 0, 0, .str "EH", .pynone⟩, ⟨"w", 1, 0, .str "B", .pynone⟩]⟩)]
    standard_typeme_tree "AE" (.str "IY") .pynone
    ⟨"AE", [⟨"w", 0, 0, .str "EH", .pynone⟩, ⟨"w", 1, 0, .str "B", .pynone⟩]⟩
    (by decide) (by decide)

theorem mapIdx_id_of_true {α : Type} (l : List α) (f : ℕ → α → α)
    (h : ∀ (i : ℕ) (hi : i < l.length), f i (l.get ⟨i, hi⟩) = l.get ⟨i, hi⟩) :
    l.mapIdx f = l := by
  apply List.ext_get
  · rw [List.length_mapIdx]
  · intro i h1 h2
    rw [List.get_mapIdx]
    exact h i h2

/-- C10: for `0 ≤ t < length`, the crossfade weights sum to exactly 1
and each lies in `[0, 1]` — a partition of unity at every sample
position. -/
theorem fade_partition (t length : ℕ) (h : t < length) :
    (fade t length).1 + (fade t length).2 = 1 ∧
    0 ≤ (fade t length).1 ∧ (fade t length).1 ≤ 1 ∧
    0 ≤ (fade t length).2 ∧ (fade t length).2 ≤ 1 := by
  have hl : (0 : ℚ) < (length : ℚ) := by
    exact_mod_cast Nat.lt_of_le_of_lt (Nat.zero_le t) h
  have ht : (t : ℚ) ≤ (length : ℚ) := by exact_mod_cast le_of_lt h
  have ht0 : (0 : ℚ) ≤ (t : ℚ) := by positivity
  rw [fade]
  refine ⟨?_, ?_, ?_, ?_, ?_⟩
  · rw [div_add_div_same, sub_add_cancel, div_self (ne_of_gt hl)]
  · exact div_nonneg (sub_nonneg.mpr ht) (le_of_lt hl)
  · rw [div_le_one hl]
    linarith
  · exact div_nonneg ht0 (le_of_lt hl)
  · rw [div_le_one hl]
    exact ht

/-- Witness for C10 at `t = 1`, `length = 2`. -/
theorem fade_partition_witness :
    (fade 1 2).1 + (fade 1 2).2 = 1 ∧
    0 ≤ (fade 1 2).1 ∧ (fade 1 2).1 ≤ 1 ∧
    0 ≤ (fade 1 2).2 ∧ (fade 1 2).2 ≤ 1 :=
  fade_partition 1 2 (by decide)

/-- C8: a crossfade window of length 0 is a no-op: the zero pad is
empty, the mixing loop body never runs (so `fade` is never evaluated at
length 0 and nothing divides by zero), the existing output samples are
unchanged and the current slice is appended unmodified. -/
theorem crossfadeStep_zero (synth wavSeg : List ℚ) (overlap : ℚ) :
    crossfadeStep synth wavSeg overlap 0 = synth ++ wavSeg := by
  rw [crossfadeStep]
  simp only [Nat.cast_zero, mul_zero, Int.floor_zero, Int.toNat_zero,
    List.replicate_zero, List.nil_append, List.drop_zero, Nat.sub_zero]
  congr 1
  apply mapIdx_id_of_true
  intro i hi
  rw [if_neg (not_le.mpr hi)]

/-- C2: evaluated at a failing input where consecutive units come from
different words, the crossfade length computed by the code — from the
*current* word's grid at the previous instance's interval index — is
100, while `floor(0.1·min(P, C))` with `P` the previous unit's own
slice length (10 samples) and `C` the current slice length (1000
samples) is 1; the code thus also exceeds the claimed
`0.1·min(len(prev), len(curr))` bound. -/
theorem crossfade_length_uses_wrong_grid :
    sliceLen [⟨"A", 0, 10⟩] 1 0 = 10 ∧
    sliceLen [⟨"X", 0, 1000⟩, ⟨"Y", 1000, 2000⟩] 1 1 = 1000 ∧
    crossfadeLenCode [⟨"X", 0, 1000⟩, ⟨"Y", 1000, 2000⟩] 1 0 1000 = some 100 ∧
    crossfadeLenSpec 10 1000 = 1 ∧
    (100 : ℤ) ≠ 1 := by
  refine ⟨?_, ?_, ?_, ?_, by decide⟩
  · norm_num [sliceLen, sampleIdx, List.get?]
  · norm_num [sliceLen, sampleIdx, List.get?]
  · norm_num [crossfadeLenCode, sampleIdx, List.get?]
  · norm_num [crossfadeLenSpec]

theorem find?_fst_erase : ∀ (d1 d2 : List (String × Phoneme)),
    eraseDict d1 = eraseDict d2 → ∀ k : String,
      Option.map erasePhoneme (dictFind d1 k) = Option.map erasePhoneme (dictFind d2 k) ∧
      dictContains d1 k = dictContains d2 k
  | [], d2, h, k => by
    have : d2 = [] := by
      have h2 := h.symm
      rw [eraseDict, eraseDict] at h2
      exact List.map_eq_nil_iff.mp (by rw [List.map_nil] at h2; exact h2)
    subst this
    exact ⟨rfl, rfl⟩
  | e :: d1, d2, h, k => by
    cases d2 with
    | nil =>
      rw [eraseDict, eraseDict, List.map_cons, List.map_nil] at h
      exact List.noConfusion h
    | cons e2 d2 =>
      rw [eraseDict, eraseDict, List.map_cons, List.map_cons] at h
      injection h with hhead htail
      rw [Prod.mk.injEq] at hhead
      obtain ⟨hfst, hsnd⟩ := hhead
      have ih := find?_fst_erase d1 d2 htail k
      by_cases hek : ((fun x : String × Phoneme => x.1 == k) e) = true
      · have hek2 : ((fun x : String × Phoneme => x.1 == k) e2) = true := by
          show (e2.1 == k) = true
          rw [← hfst]; exact hek
        rw [dictFind, dictFind, dictContains, dictContains,
          @List.find?_cons_of_pos _ (fun x : String × Phoneme => x.1 == k) e d1 hek,
          @List.find?_cons_of_pos _ (fun x : String × Phoneme => x.1 == k) e2 d2 hek2]
        refine ⟨?_, rfl⟩
        show some (erasePhoneme e.2) = some (erasePhoneme e2.2)
        rw [hsnd]
      · have hek2 : ¬ ((fun x : String × Phoneme => x.1 == k) e2) = true := by
          show ¬ (e2.1 == k) = true
          rw [← hfst]; exact hek
        rw [dictFind, dictFind, dictContains, dictContains,
          @List.find?_cons_of_neg _ (fun x : String × Phoneme => x.1 == k) e d1 hek,
          @List.find?_cons_of_neg _ (fun x : String × Phoneme => x.1 == k) e2 d2 hek2]
        exact ih

theorem eraseDict_append_entry (d : List (String × Phoneme)) (k : String) (p : Phoneme) :
    eraseDict (d ++ [(k, p)]) = eraseDict d ++ [(k, erasePhoneme p)] := by
  rw [eraseDict, eraseDict, List.map_append, List.map_cons, List.map_nil]

theorem eraseDict_insertNew_eq (d : List (String × Phoneme)) (k : String) :
    eraseDict (dictInsertNew d k) =
      if dictContains d k then eraseDict d
      else eraseDict d ++ [(k, (k, []))] := by
  rw [dictInsertNew]
  split
  · rfl
  · rw [eraseDict_append_entry]; rfl

theorem eraseDict_dictAppend (d : List (String × Phoneme)) (k : String)
    (x : PhonemeInstance) :
    eraseDict (dictAppend d k x) = (eraseDict d).map (fun e =>
      if e.1 == k then (e.1, (e.2.1, e.2.2 ++ [eraseInst x])) else e) := by
  rw [dictAppend, eraseDict, eraseDict, List.map_map, List.map_map]
  refine List.map_congr_left fun e _ => ?_
  simp only [Function.comp]
  by_cases hek : (e.1 == k) = true
  · rw [if_pos hek, if_pos hek]
    rw [erasePhoneme, erasePhoneme, List.map_append]
    rfl
  · rw [if_neg hek, if_neg hek]

theorem eraseDict_dictPatchNex (d : List (String × Phoneme)) (k w : String) (i : ℕ)
    (v : Ctx) : eraseDict (dictPatchNex d k w i v) = eraseDict d := by
  rw [dictPatchNex, eraseDict, eraseDict, List.map_map]
  refine List.map_congr_left fun e _ => ?_
  simp only [Function.comp]
  by_cases hek : (e.1 == k) = true
  · rw [if_pos hek]
    simp only [erasePhoneme, List.map_map]
    refine congrArg _ (congrArg _ ?_)
    refine List.map_congr_left fun inst _ => ?_
    simp only [Function.comp]
    split
    · rfl
    · rfl
  · rw [if_neg hek]

theorem step_erase (f0 : List ℚ → ℕ → ℚ) (stem : String) (wav : List ℚ) (sr : ℕ)
    (st1 st2 : List (String × Phoneme) × Option String)
    (hd : eraseDict st1.1 = eraseDict st2.1) (hp : st1.2 = st2.2) (iv : ℕ × GridInterval) :
    eraseDict (diskStep f0 stem wav sr st1 iv).1
        = eraseDict (memStep f0 stem wav sr st2 iv).1 ∧
    (diskStep f0 stem wav sr st1 iv).2 = (memStep f0 stem wav sr st2 iv).2 := by
  obtain ⟨d1, p1⟩ := st1
  obtain ⟨d2, p2⟩ := st2
  simp only at hd hp
  subst hp
  set n := strip_stress iv.2.text with hn
  set ton := f0 (pySlice wav (sampleIdx sr iv.2.xmin) (sampleIdx sr iv.2.xmax)) sr with hton
  have hcont := (find?_fst_erase d1 d2 hd n).2
  have hins : eraseDict (dictInsertNew d1 n) = eraseDict (dictInsertNew d2 n) := by
    rw [eraseDict_insertNew_eq, eraseDict_insertNew_eq, hcont, hd]
  cases p1 with
  | none =>
    refine ⟨?_, rfl⟩
    show eraseDict (dictAppend (dictInsertNew d1 n) n ⟨stem, iv.1, ton, .pynone, .pynone⟩)
        = eraseDict (dictAppend (dictInsertNew d2 n) n ⟨stem, iv.1, ton, .str "", .str ""⟩)
    rw [eraseDict_dictAppend, eraseDict_dictAppend, hins]
    rfl
  | some p =>
    refine ⟨?_, rfl⟩
    show eraseDict (dictPatchNex
        (dictAppend (dictInsertNew d1 n) n ⟨stem, iv.1, ton, .str p, .pynone⟩)
        p stem (iv.1 - 1) (.ref stem iv.1))
      = eraseDict (dictPatchNex
        (dictAppend (dictInsertNew d2 n) n ⟨stem, iv.1, ton, .str p, .str ""⟩)
        p stem (iv.1 - 1) (.str n))
    rw [eraseDict_dictPatchNex, eraseDict_dictPatchNex,
      eraseDict_dictAppend, eraseDict_dictAppend, hins]
    rfl

theorem foldl_steps_erase (f0 : List ℚ → ℕ → ℚ) (stem : String) (wav : List ℚ)
    (sr : ℕ) : ∀ (ivs : List (ℕ × GridInterval))
    (st1 st2 : List (String × Phoneme) × Option String),
    eraseDict st1.1 = eraseDict st2.1 → st1.2 = st2.2 →
      eraseDict (ivs.foldl (diskStep f0 stem wav sr) st1).1
          = eraseDict (ivs.foldl (memStep f0 stem wav sr) st2).1 ∧
      (ivs.foldl (diskStep f0 stem wav sr) st1).2
          = (ivs.foldl (memStep f0 stem wav sr) st2).2
  | [], _, _, hd, hp => ⟨hd, hp⟩
  | iv :: ivs, st1, st2, hd, hp => by
    rw [List.foldl_cons, List.foldl_cons]
    obtain ⟨hd', hp'⟩ := step_erase f0 stem wav sr st1 st2 hd hp iv
    exact foldl_steps_erase f0 stem wav sr ivs _ _ hd' hp'

theorem build_erase (f0 : List ℚ → ℕ → ℚ) : ∀ (c : List CorpusItem)
    (d1 d2 : List (String × Phoneme)), eraseDict d1 = eraseDict d2 →
    eraseDict (c.foldl (fun d item =>
        (item.intervals.enum.foldl (diskStep f0 item.stem item.wav item.sr) (d, none)).1) d1)
      = eraseDict (c.foldl (fun d item =>
        (item.intervals.enum.foldl (memStep f0 item.stem item.wav item.sr) (d, none)).1) d2)
  | [], _, _, hd => hd
  | item :: c, d1, d2, hd => by
    rw [List.foldl_cons, List.foldl_cons]
    refine build_erase f0 c _ _ ?_
    exact (foldl_steps_erase f0 item.stem item.wav item.sr item.intervals.enum
      (d1, none) (d2, none) hd rfl).1

theorem data_foldr_erase (c : List CorpusItem) :
    ∀ (l1 l2 : List PhonemeInstance), l1.map eraseInst = l2.map eraseInst →
    (l1.foldr (fun inst acc =>
      match get_word_data c inst.word with
      | none => acc
      | some ((wav, sr), grid) =>
        match grid.get? inst.interval with
        | none => acc
        | some gi =>
          (inst, (pySlice wav (sampleIdx sr gi.xmin) (sampleIdx sr gi.xmax), sr), gi)
            :: acc) []).map eraseData
      = (l2.foldr (fun inst acc =>
      match get_word_data c inst.word with
      | none => acc
      | some ((wav, sr), grid) =>
        match grid.get? inst.interval with
        | none => acc
        | some gi =>
          (inst, (pySlice wav (sampleIdx sr gi.xmin) (sampleIdx sr gi.xmax), sr), gi)
            :: acc) []).map eraseData
  | [], l2, h => by
    have : l2 = [] := List.map_eq_nil_iff.mp (by rw [← h, List.map_nil])
    subst this
    rfl
  | x1 :: l1, l2, h => by
    cases l2 with
    | nil => rw [List.map_cons, List.map_nil] at h; exact List.noConfusion h
    | cons x2 l2 =>
      rw [List.map_cons, List.map_cons] at h
      injection h with hhead htail
      rw [eraseInst, eraseInst, Prod.mk.injEq, Prod.mk.injEq] at hhead
      obtain ⟨hw, hi, ht⟩ := hhead
      have ih := data_foldr_erase c l1 l2 htail
      rw [List.foldr_cons, List.foldr_cons, hw, hi]
      cases hwd : get_word_data c x2.word with
      | none => exact ih
      | some wg =>
        obtain ⟨⟨wav, sr⟩, grid⟩ := wg
        dsimp only
        cases hgi : grid.get? x2.interval with
        | none => exact ih
        | some gi =>
          rw [List.map_cons, List.map_cons, ih]
          refine congrArg₂ _ ?_ rfl
          rw [eraseData, eraseData, eraseInst, eraseInst]
          rw [hw, hi, ht]

/-- C3 counterexample: over the same two-interval corpus, the two
loaders' `get_phoneme` results differ — the disk loader stores the
first instance's `pre` as `None` and its `nex` as an instance
reference, while the memory loader stores the empty-string sentinel and
the label string.  The loaders are not observationally equivalent on
`pre`/`nex` context values. -/
theorem loaders_context_differs :
    (dictFind (diskBuild (fun _ _ => 0)
        [⟨"w", [], 1, [⟨"A", 0, 0⟩, ⟨"B", 0, 0⟩]⟩]) "A").map
        (fun p => p.instances.map (fun x => (x.pre, x.nex)))
      = some [(Ctx.pynone, Ctx.ref "w" 1)] ∧
    (dictFind (memBuild (fun _ _ => 0)
        [⟨"w", [], 1, [⟨"A", 0, 0⟩, ⟨"B", 0, 0⟩]⟩]) "A").map
        (fun p => p.instances.map (fun x => (x.pre, x.nex)))
      = some [(Ctx.str "", Ctx.str "B")] ∧
    dictFind (diskBuild (fun _ _ => 0)
        [⟨"w", [], 1, [⟨"A", 0, 0⟩, ⟨"B", 0, 0⟩]⟩]) "A"
      ≠ dictFind (memBuild (fun _ _ => 0)
        [⟨"w", [], 1, [⟨"A", 0, 0⟩, ⟨"B", 0, 0⟩]⟩]) "A" := by
  refine ⟨?_, ?_, ?_⟩ <;> decide

/-- C3 (amended): for the same corpus, `PhonemeDiskLoader` and
`PhonemeMemLoader` agree on the phoneme dictionary's keys and on every
instance's word, interval and intonation, and `get_phoneme_data`
returns byte-identical audio slices with identical sample rates and
grid intervals; the two differ only in the representation of the
`pre`/`nex` context (`None` / instance references in the disk loader
versus empty-string sentinels / label strings in the memory loader). -/
theorem loaders_agree_modulo_context (f0 : List ℚ → ℕ → ℚ) (c : List CorpusItem)
    (name : String) :
    eraseDict (diskBuild f0 c) = eraseDict (memBuild f0 c) ∧
    Option.map erasePhoneme (dictFind (diskBuild f0 c) name)
      = Option.map erasePhoneme (dictFind (memBuild f0 c) name) ∧
    (get_phoneme_data c (diskBuild f0 c) name).map eraseData
      = (get_phoneme_data c (memBuild f0 c) name).map eraseData := by
  have hbuild : eraseDict (diskBuild f0 c) = eraseDict (memBuild f0 c) := by
    rw [diskBuild, memBuild]
    exact build_erase f0 c [] [] rfl
  have hfind := (find?_fst_erase _ _ hbuild name).1
  refine ⟨hbuild, hfind, ?_⟩
  rw [get_phoneme_data, get_phoneme_data]
  cases h1 : dictFind (diskBuild f0 c) name with
  | none =>
    cases h2 : dictFind (memBuild f0 c) name with
    | none => rfl
    | some ph2 =>
      rw [h1, h2] at hfind
      exact Option.noConfusion hfind
  | some ph1 =>
    cases h2 : dictFind (memBuild f0 c) name with
    | none =>
      rw [h1, h2] at hfind
      exact Option.noConfusion hfind
    | some ph2 =>
      rw [h1, h2] at hfind
      rw [Option.map, Option.map] at hfind
      injection hfind with hfe
      rw [erasePhoneme, erasePhoneme, Prod.mk.injEq] at hfe
      exact data_foldr_erase c ph1.instances ph2.instances hfe.2

end Jamcoder
